import Mathlib

/-!
Verification of `src/pygtftk/src/libgtftk/command/get_list.c`.

The file under verification contains four public entry points
(`get_feature_list`, `get_seqid_list`, `get_attribute_list`,
`get_attribute_values_list`) that materialize a frequency index (a sorted
binary tree mapping each distinct column/attribute value to its occurrence
data) into a growable table of text rows (`TTEXT`).  The traversal callback
`action_list` appends one row `[count, value]` per visited tree entry into a
process-global accumulator `vret`.

External collaborators (`index_gtf`, `get_all_attributes`, the `tsearch`
tree comparator) are not part of the verified source file; they are modelled
from the specification, with a doc comment marking each such definition.
-/

namespace GetListC

/-- `ROW_LIST` payload of one index tree node (from `libgtftk.h` as used by
`action_list`): `token` is the distinct value, `nb_row` the number of data
rows bearing it. -/
structure ROW_LIST where
  token : String
  nb_row : Nat
  deriving Repr, DecidableEq

/-- `TTEXT` result table: `size` is the row count maintained by the C code,
`data` the ordered rows, each row a list of text fields. -/
structure TTEXT where
  size : Nat
  data : List (List String)
  deriving Repr, DecidableEq

/-- The sorted binary tree underlying a frequency index (the structure that
`tsearch`/`twalk` operate on): each node carries a `ROW_LIST`. -/
inductive Tree where
  | empty : Tree
  | node (l : Tree) (d : ROW_LIST) (r : Tree) : Tree
  deriving Repr, DecidableEq

/-- One data row of a GTF dataset, restricted to the parts this command
reads: the `seqid` column, the `feature` column, and the attribute
name/value pairs of the row. -/
structure GTF_ROW where
  seqid : String
  feature : String
  attributes : List (String × String)
  deriving Repr, DecidableEq

/-- A parsed GTF dataset: an ordered sequence of data rows. -/
structure GTF_DATA where
  rows : List GTF_ROW
  deriving Repr, DecidableEq

/-- Error outcome of the index collaborator (spec section 7): the requested
key has no corresponding index and cannot be built. -/
inductive GtfError where
  | UnknownKey : GtfError
  deriving Repr, DecidableEq

/-- In-order flattening of an index tree (ascending key order once the tree
is a search tree). -/
def Tree.inorder : Tree → List ROW_LIST
  | .empty => []
  | .node l d r => l.inorder ++ d :: r.inorder

/-- The row appended by `action_list` for one visited node:
`sprintf(tmp, "%d", datap->nb_row)` then `[dupstring(tmp), dupstring(datap->token)]`. -/
def action_list_row (datap : ROW_LIST) : List String :=
  [toString datap.nb_row, datap.token]

/-- The body of `action_list` for the `postorder`/`leaf` cases: grow
`vret->data` by one row, fill it with `[text(nb_row), token]`, and increment
`vret->size`.  The visited node payload is returned unchanged (the callback
only reads `datap`). -/
def action_list (datap : ROW_LIST) (vret : TTEXT) : ROW_LIST × TTEXT :=
  (datap, ⟨vret.size + 1, vret.data ++ [action_list_row datap]⟩)

/-- `twalk(root, action_list)`: depth-first walk of the tree.  glibc visits
an internal node as `preorder` (ignored), then its left subtree, then the
node as `postorder`, then its right subtree, then `endorder` (ignored); a
childless node is visited once as `leaf`.  `action_list` handles `postorder`
and `leaf` by the same fall-through arm, so a childless node behaves exactly
like the general case with two empty subtrees, and one equation covers both.
The walk returns the (unmodified) tree together with the final accumulator. -/
def twalk_action_list : Tree → TTEXT → Tree × TTEXT
  | .empty, vret => (.empty, vret)
  | .node l datap r, vret =>
    let p1 := twalk_action_list l vret
    let p2 := action_list datap p1.2
    let p3 := twalk_action_list r p2.2
    (.node p1.1 p2.1 p3.1, p3.2)

/-- Modelled from the spec: `strcmp`-style lexicographic comparison of two
character sequences, the comparison rule of the sorted index ("lexicographic
on the original representation", spec section 3).  Executable so that the
index can be evaluated on concrete data. -/
def charsLt : List Char → List Char → Bool
  | [], [] => false
  | [], _ :: _ => true
  | _ :: _, [] => false
  | a :: as, b :: bs =>
    if a < b then true
    else if b < a then false
    else charsLt as bs

/-- Lexicographic comparison of two text values, see `charsLt`. -/
def strLt (s1 s2 : String) : Bool :=
  charsLt s1.data s2.data

/-- Modelled from the spec: `tsearch`-style insertion of one occurrence of
value `v` into the sorted index tree, the part of the index-construction
collaborator `index_gtf` that is not in the verified source.  Spec section 3:
the index is "a sorted tree keyed by distinct column/attribute values, each
key annotated with an occurrence count", ordered lexicographically on the
value; inserting an already-present value increments its count. -/
def tinsert : Tree → String → Tree
  | .empty, v => .node .empty ⟨v, 1⟩ .empty
  | .node l d r, v =>
    if strLt v d.token then .node (tinsert l v) d r
    else if v = d.token then .node l ⟨d.token, d.nb_row + 1⟩ r
    else .node l d (tinsert r v)

/-- Modelled from the spec: the sorted frequency-index tree for a column's
value sequence, built by inserting each occurrence in dataset order. -/
def buildIndexTree (vals : List String) : Tree :=
  vals.foldl tinsert .empty

/-- Modelled from the spec: the ordered sequence of distinct attribute names
of a dataset, produced by the missing collaborator `get_all_attributes`.
Spec sections 2 and 6: the enumerator is order-stable and returns each name
once; it never fails.  Names are collected in order of first appearance. -/
def addName (acc : List String) (n : String) : List String :=
  if n ∈ acc then acc else acc ++ [n]

/-- Modelled from the spec: `get_all_attributes` collaborator, see `addName`. -/
def get_all_attributes (gtf_data : GTF_DATA) : List String :=
  gtf_data.rows.foldl (fun acc r => (r.attributes.map (fun p => p.1)).foldl addName acc) []

/-- The value of attribute `a` on one row, if the row carries it. -/
def rowAttrValue (r : GTF_ROW) (a : String) : Option String :=
  (r.attributes.find? (fun p => p.1 == a)).map (fun p => p.2)

/-- Modelled from the spec: the sequence of values of `key` across the
dataset, or `UnknownKey` when the key is neither a known column nor an
attribute occurring in the dataset (spec sections 6 and 7:
`build_or_get_index(dataset, key_name) -> IndexHandle | Error(UnknownKey)`).
For an attribute key, rows lacking the attribute contribute no value. -/
def keyValues (gtf_data : GTF_DATA) (key : String) : Except GtfError (List String) :=
  if key = "seqid" then .ok (gtf_data.rows.map (fun r => r.seqid))
  else if key = "feature" then .ok (gtf_data.rows.map (fun r => r.feature))
  else if key ∈ get_all_attributes gtf_data then
    .ok (gtf_data.rows.filterMap (fun r => rowAttrValue r key))
  else .error .UnknownKey

/-- Modelled from the spec: the `index_gtf` collaborator.  It either signals
`UnknownKey` or yields the sorted frequency-index tree for the key (the tree
that the verified source then walks with `twalk`). -/
def index_gtf (gtf_data : GTF_DATA) (key : String) : Except GtfError Tree :=
  match keyValues gtf_data key with
  | .error e => .error e
  | .ok vals => .ok (buildIndexTree vals)

/-- `get_feature_list`: allocate a zero-initialised `TTEXT` into the global
`vret`, index the dataset on the `feature` column, walk the index with
`action_list`, and return `vret`.  The model threads the mutable context
explicitly: `vret0` is the value of the global accumulator at call entry
(overwritten before use), and the result carries the returned table, the
dataset after the call, and the global accumulator after the call. -/
def get_feature_list (gtf_data : GTF_DATA) (vret0 : TTEXT) :
    Except GtfError (TTEXT × GTF_DATA × TTEXT) :=
  let _ := vret0
  let vret : TTEXT := ⟨0, []⟩
  match index_gtf gtf_data "feature" with
  | .error e => .error e
  | .ok tr =>
    let p := twalk_action_list tr vret
    .ok (p.2, gtf_data, p.2)

/-- `get_seqid_list`: identical to `get_feature_list` with the `seqid`
column as index key. -/
def get_seqid_list (gtf_data : GTF_DATA) (vret0 : TTEXT) :
    Except GtfError (TTEXT × GTF_DATA × TTEXT) :=
  let _ := vret0
  let vret : TTEXT := ⟨0, []⟩
  match index_gtf gtf_data "seqid" with
  | .error e => .error e
  | .ok tr =>
    let p := twalk_action_list tr vret
    .ok (p.2, gtf_data, p.2)

/-- `get_attribute_list`: enumerate the distinct attribute names, fill a
fresh table with one single-field row per name in enumeration order, and set
`size` to the number of names.  This entry point cannot fail. -/
def get_attribute_list (gtf_data : GTF_DATA) (vret0 : TTEXT) :
    TTEXT × GTF_DATA × TTEXT :=
  let _ := vret0
  let sl := get_all_attributes gtf_data
  let vret : TTEXT := ⟨sl.length, sl.map (fun n => [n])⟩
  (vret, gtf_data, vret)

/-- `get_attribute_values_list`: like `get_feature_list` but indexing on the
caller-supplied attribute key; the indexer's failure propagates. -/
def get_attribute_values_list (gtf_data : GTF_DATA) (attr : String) (vret0 : TTEXT) :
    Except GtfError (TTEXT × GTF_DATA × TTEXT) :=
  let _ := vret0
  let vret : TTEXT := ⟨0, []⟩
  match index_gtf gtf_data attr with
  | .error e => .error e
  | .ok tr =>
    let p := twalk_action_list tr vret
    .ok (p.2, gtf_data, p.2)

/-- Reference accumulation on sorted association lists: insert one
occurrence of `v` into a list of `(token, count)` entries kept in strictly
ascending token order.  This is the list-level mirror of `tinsert`. -/
def insertCount : List ROW_LIST → String → List ROW_LIST
  | [], v => [⟨v, 1⟩]
  | e :: rest, v =>
    if strLt v e.token then ⟨v, 1⟩ :: e :: rest
    else if v = e.token then ⟨e.token, e.nb_row + 1⟩ :: rest
    else e :: insertCount rest v

/-- The sorted distinct-value/count list of a value sequence. -/
def countSorted (vals : List String) : List ROW_LIST :=
  vals.foldl insertCount []

/-- Strictly-ascending-token invariant of index entry lists. -/
def SortedRL (l : List ROW_LIST) : Prop :=
  l.Pairwise (fun a b => a.token < b.token)

/-- Total occurrence weight that the entries of token `v` carry in an entry
list; for a well-formed index list this is the occurrence count of `v`. -/
def countTok (L : List ROW_LIST) (v : String) : Nat :=
  (L.map (fun e => if e.token = v then e.nb_row else 0)).sum

/-- The table produced by walking the index of a value sequence. -/
def mkTable (vals : List String) : TTEXT :=
  ⟨(countSorted vals).length, (countSorted vals).map action_list_row⟩

/-- Identity of one of two overlapping calls in the concurrency model. -/
inductive CallId where
  | one : CallId
  | two : CallId
  deriving Repr, DecidableEq

/-- Atomic operations a call performs on the process-global accumulator
`vret` (file-scope `TTEXT *vret` in the source): resetting it to a fresh
zero-initialised table at call entry, appending one row during the index
walk, and reading it back at `return vret`. -/
inductive ConcOp where
  | setFresh (c : CallId) : ConcOp
  | appendRow (c : CallId) (row : List String) : ConcOp
  | ret (c : CallId) : ConcOp
  deriving Repr, DecidableEq

/-- The call that issues an atomic operation. -/
def opCall : ConcOp → CallId
  | .setFresh c => c
  | .appendRow c _ => c
  | .ret c => c

/-- Shared state of two overlapping calls: the global accumulator `g` and
the table each call has returned, if it has returned. -/
structure ConcState where
  g : TTEXT
  res1 : Option TTEXT
  res2 : Option TTEXT
  deriving Repr, DecidableEq

/-- Effect of one atomic operation on the shared state. -/
def concStep (s : ConcState) : ConcOp → ConcState
  | .setFresh _ => { s with g := ⟨0, []⟩ }
  | .appendRow _ row => { s with g := ⟨s.g.size + 1, s.g.data ++ [row]⟩ }
  | .ret c =>
    match c with
    | .one => { s with res1 := some s.g }
    | .two => { s with res2 := some s.g }

/-- Execution of a sequence of atomic operations. -/
def runOps (ops : List ConcOp) (s : ConcState) : ConcState :=
  ops.foldl concStep s

/-- The atomic-operation trace of one index-based call: reset the global
accumulator, append one row per index entry in traversal order (exactly the
appends `twalk`/`action_list` performs), and read the accumulator back at
return.  A call whose key cannot be indexed performs no accumulator writes. -/
def callOps (c : CallId) (gtf_data : GTF_DATA) (key : String) : List ConcOp :=
  match index_gtf gtf_data key with
  | .error _ => []
  | .ok tr => .setFresh c :: (tr.inorder.map (fun e => ConcOp.appendRow c (action_list_row e)) ++ [.ret c])

/-- An interleaving of two operation sequences: a merge keeping each
sequence's internal order. -/
inductive Interleave : List ConcOp → List ConcOp → List ConcOp → Prop where
  | nil : Interleave [] [] []
  | left {a : ConcOp} {l1 l2 l : List ConcOp} :
      Interleave l1 l2 l → Interleave (a :: l1) l2 (a :: l)
  | right {a : ConcOp} {l1 l2 l : List ConcOp} :
      Interleave l1 l2 l → Interleave l1 (a :: l2) (a :: l)

/-- Dataset of the worked example: feature column holds
`["exon", "exon", "gene", "exon"]`. -/
def exampleData : GTF_DATA :=
  ⟨[⟨"chr1", "exon", []⟩, ⟨"chr1", "exon", []⟩, ⟨"chr1", "gene", []⟩, ⟨"chr1", "exon", []⟩]⟩

/-- First dataset of the concurrency counterexample: one `a` feature row. -/
def dsX : GTF_DATA := ⟨[⟨"c1", "a", []⟩]⟩

/-- Second dataset of the concurrency counterexample: one `b` feature row. -/
def dsY : GTF_DATA := ⟨[⟨"c1", "b", []⟩]⟩

/-- A concrete interleaving of the two calls' traces in which both calls
run their `vret` reset first and only then their appends and returns. -/
def opsIL : List ConcOp :=
  [.setFresh .one, .setFresh .two, .appendRow .one ["1", "a"],
   .appendRow .two ["1", "b"], .ret .one, .ret .two]

/-- Initial shared state: zero-initialised accumulator, no call returned. -/
def s0c : ConcState := ⟨⟨0, []⟩, none, none⟩

/-- Dataset used by concrete witnesses: one row carrying one attribute. -/
def dsW : GTF_DATA := ⟨[⟨"chr2", "exon", [("gene_id", "g1")]⟩]⟩

/-- The dataset with zero rows. -/
def dsEmpty : GTF_DATA := ⟨[]⟩

theorem charsLt_iff (l1 l2 : List Char) : charsLt l1 l2 = true ↔ List.lt l1 l2 := by
  induction l1 generalizing l2 with
  | nil =>
    cases l2 with
    | nil =>
      simp only [charsLt, Bool.false_eq_true, false_iff]
      intro h
      cases h
    | cons b bs =>
      simp only [charsLt, true_iff]
      exact List.lt.nil b bs
  | cons a as ih =>
    cases l2 with
    | nil =>
      simp only [charsLt, Bool.false_eq_true, false_iff]
      intro h
      cases h
    | cons b bs =>
      by_cases hab : a < b
      · simp only [charsLt, hab, if_true, true_iff]
        exact List.lt.head _ _ hab
      · by_cases hba : b < a
        · simp only [charsLt, hab, if_false, hba, if_true, Bool.false_eq_true, false_iff]
          intro h
          cases h with
          | head _ _ h => exact hab h
          | tail h1 h2 h3 => exact h2 hba
        · simp only [charsLt, hab, if_false, hba, ih]
          constructor
          · intro h
            exact List.lt.tail hab hba h
          · intro h
            cases h with
            | head _ _ h => exact absurd h hab
            | tail h1 h2 h3 => exact h3

/-- The modelled comparator agrees with the mathematical strict order on
text values: `strLt` is the decidable mirror of `<`. -/
theorem strLt_iff_lt (s1 s2 : String) : strLt s1 s2 = true ↔ s1 < s2 := by
  rw [strLt, charsLt_iff, List.lt_iff_lex_lt, String.lt_iff_toList_lt]
  exact Iff.rfl

theorem strLt_self (s : String) : ¬ (strLt s s = true) := by
  rw [strLt_iff_lt]
  exact lt_irrefl s

theorem twalk_spec (t : Tree) (v : TTEXT) :
    twalk_action_list t v =
      (t, ⟨v.size + t.inorder.length, v.data ++ t.inorder.map action_list_row⟩) := by
  induction t generalizing v with
  | empty => simp [twalk_action_list, Tree.inorder]
  | node l d r ihl ihr =>
    simp only [twalk_action_list, Tree.inorder, action_list, ihl, ihr, List.map_append,
      List.map_cons, List.length_append, List.length_cons]
    refine Prod.ext rfl (TTEXT.mk.injEq _ _ _ _ ▸ ⟨by omega, by simp⟩)

theorem insertCount_append_lt (L1 L2 : List ROW_LIST) (d : ROW_LIST) (v : String)
    (h : v < d.token) :
    insertCount (L1 ++ d :: L2) v = insertCount L1 v ++ d :: L2 := by
  induction L1 with
  | nil => simp [insertCount, strLt_iff_lt, h]
  | cons e rest ih =>
    by_cases h1 : v < e.token
    · simp [insertCount, strLt_iff_lt, h1]
    · by_cases h2 : v = e.token
      · simp [insertCount, strLt_iff_lt, h1, h2]
      · simp [insertCount, strLt_iff_lt, h1, h2, ih]

theorem insertCount_append_gt (L1 L2 : List ROW_LIST) (v : String)
    (h : ∀ e ∈ L1, e.token < v) :
    insertCount (L1 ++ L2) v = L1 ++ insertCount L2 v := by
  induction L1 with
  | nil => simp
  | cons e rest ih =>
    have he : e.token < v := h e (by simp)
    have h1 : ¬ v < e.token := lt_asymm he
    have h2 : ¬ v = e.token := fun hv => absurd he (hv ▸ lt_irrefl v)
    simp only [List.cons_append, insertCount, strLt_iff_lt, h1, h2, if_false, List.append_eq]
    rw [ih (fun x hx => h x (by simp [hx]))]

theorem tinsert_inorder (t : Tree) (v : String) (h : SortedRL t.inorder) :
    (tinsert t v).inorder = insertCount t.inorder v := by
  induction t with
  | empty => simp [tinsert, Tree.inorder, insertCount]
  | node l d r ihl ihr =>
    rw [Tree.inorder, SortedRL, List.pairwise_append] at h
    obtain ⟨hl, hdr, hcross⟩ := h
    rw [List.pairwise_cons] at hdr
    obtain ⟨hdright, hr⟩ := hdr
    have hld : ∀ e ∈ l.inorder, e.token < d.token := fun e he => hcross e he d (by simp)
    by_cases h1 : v < d.token
    · rw [tinsert]
      simp only [strLt_iff_lt, h1, if_true, Tree.inorder, ihl hl,
        insertCount_append_lt _ _ _ _ h1]
    · by_cases h2 : v = d.token
      · subst h2
        rw [show (Tree.node l d r).inorder = l.inorder ++ d :: r.inorder from rfl,
          insertCount_append_gt _ _ _ hld]
        simp [tinsert, insertCount, Tree.inorder, strLt_iff_lt]
      · have h3 : d.token < v := lt_of_le_of_ne (not_lt.mp h1) (fun q => h2 q.symm)
        rw [tinsert]
        simp only [strLt_iff_lt, h1, if_false, h2, Tree.inorder, ihr hr]
        rw [insertCount_append_gt _ _ _ (fun e he => lt_trans (hld e he) h3)]
        simp only [insertCount, strLt_iff_lt, h1, if_false, h2]

theorem token_mem_insertCount (L : List ROW_LIST) (v : String) (x : ROW_LIST)
    (hx : x ∈ insertCount L v) :
    x.token = v ∨ x.token ∈ L.map (fun e => e.token) := by
  induction L with
  | nil =>
    simp only [insertCount, List.mem_singleton] at hx
    subst hx; simp
  | cons e rest ih =>
    by_cases h1 : v < e.token
    · simp only [insertCount, strLt_iff_lt, h1, if_true, List.mem_cons] at hx
      rcases hx with hx | hx | hx
      · subst hx; simp
      · subst hx; simp
      · right
        simp only [List.map_cons, List.mem_cons, List.mem_map]
        exact Or.inr ⟨x, hx, rfl⟩
    · by_cases h2 : v = e.token
      · subst h2
        rw [insertCount, if_neg (strLt_self _), if_pos rfl] at hx
        rcases List.mem_cons.mp hx with hx | hx
        · subst hx; exact Or.inl rfl
        · right
          simp only [List.map_cons, List.mem_cons, List.mem_map]
          exact Or.inr ⟨x, hx, rfl⟩
      · simp only [insertCount, strLt_iff_lt, h1, if_false, h2, List.mem_cons] at hx
        rcases hx with hx | hx
        · subst hx; right; simp
        · rcases ih hx with hh | hh
          · exact Or.inl hh
          · right
            simp only [List.map_cons, List.mem_cons]
            exact Or.inr hh

theorem insertCount_sorted (L : List ROW_LIST) (v : String) (h : SortedRL L) :
    SortedRL (insertCount L v) := by
  induction L with
  | nil => simp [insertCount, SortedRL]
  | cons e rest ih =>
    rw [SortedRL, List.pairwise_cons] at h
    obtain ⟨hhead, hrest⟩ := h
    by_cases h1 : v < e.token
    · rw [SortedRL]
      simp only [insertCount, strLt_iff_lt, h1, if_true]
      rw [List.pairwise_cons]
      refine ⟨?_, List.pairwise_cons.mpr ⟨hhead, hrest⟩⟩
      intro b hb
      rcases List.mem_cons.mp hb with hb | hb
      · subst hb; exact h1
      · exact lt_trans h1 (hhead b hb)
    · by_cases h2 : v = e.token
      · subst h2
        rw [SortedRL, insertCount, if_neg (strLt_self _), if_pos rfl, List.pairwise_cons]
        exact ⟨fun b hb => hhead b hb, hrest⟩
      · have h3 : e.token < v := lt_of_le_of_ne (not_lt.mp h1) (fun q => h2 q.symm)
        rw [SortedRL]
        simp only [insertCount, strLt_iff_lt, h1, if_false, h2]
        rw [List.pairwise_cons]
        refine ⟨?_, ih hrest⟩
        intro b hb
        rcases token_mem_insertCount rest v b hb with hh | hh
        · exact hh ▸ h3
        · rcases List.mem_map.mp hh with ⟨y, hy, hyt⟩
          exact hyt ▸ hhead y hy

theorem foldl_insertCount_spec (vals : List String) (t : Tree) (h : SortedRL t.inorder) :
    (vals.foldl tinsert t).inorder = vals.foldl insertCount t.inorder ∧
      SortedRL (vals.foldl insertCount t.inorder) := by
  induction vals generalizing t with
  | nil => exact ⟨rfl, h⟩
  | cons a as ih =>
    have h1 : SortedRL (insertCount t.inorder a) := insertCount_sorted _ _ h
    have h2 := ih (tinsert t a) (by rw [tinsert_inorder _ _ h]; exact h1)
    rw [List.foldl_cons, List.foldl_cons, ← tinsert_inorder _ _ h]
    exact h2

theorem buildIndexTree_inorder (vals : List String) :
    (buildIndexTree vals).inorder = countSorted vals :=
  (foldl_insertCount_spec vals .empty (by simp [Tree.inorder, SortedRL])).1

theorem countSorted_sorted (vals : List String) : SortedRL (countSorted vals) :=
  (foldl_insertCount_spec vals .empty (by simp [Tree.inorder, SortedRL])).2

theorem mem_insertCount_token_iff (L : List ROW_LIST) (v v' : String) :
    v' ∈ (insertCount L v).map (fun e => e.token) ↔
      v' = v ∨ v' ∈ L.map (fun e => e.token) := by
  induction L with
  | nil => simp [insertCount]
  | cons e rest ih =>
    by_cases h1 : v < e.token
    · simp only [insertCount, strLt_iff_lt, h1, if_true, List.map_cons, List.mem_cons]
    · by_cases h2 : v = e.token
      · subst h2
        rw [insertCount, if_neg (strLt_self _), if_pos rfl]
        simp only [List.map_cons, List.mem_cons]
        tauto
      · simp only [insertCount, strLt_iff_lt, h1, if_false, h2, List.map_cons, List.mem_cons, ih]
        tauto

theorem mem_countSorted_iff (vals : List String) (v' : String) :
    v' ∈ (countSorted vals).map (fun e => e.token) ↔ v' ∈ vals := by
  have haux : ∀ (l : List String) (L : List ROW_LIST),
      v' ∈ (l.foldl insertCount L).map (fun e => e.token) ↔
        v' ∈ L.map (fun e => e.token) ∨ v' ∈ l := by
    intro l
    induction l with
    | nil => simp
    | cons a as ih =>
      intro L
      rw [List.foldl_cons, ih, mem_insertCount_token_iff]
      simp only [List.mem_cons]
      tauto
  rw [countSorted, haux]
  simp

theorem countTok_insertCount (L : List ROW_LIST) (v0 v : String) :
    countTok (insertCount L v0) v = countTok L v + (if v0 = v then 1 else 0) := by
  induction L with
  | nil =>
    by_cases h : v0 = v <;> simp [insertCount, countTok, h]
  | cons e rest ih =>
    by_cases h1 : v0 < e.token
    · simp only [insertCount, strLt_iff_lt, h1, if_true, countTok, List.map_cons, List.sum_cons]
      omega
    · by_cases h2 : v0 = e.token
      · subst h2
        rw [insertCount, if_neg (strLt_self _), if_pos rfl]
        simp only [countTok, List.map_cons, List.sum_cons]
        by_cases h : e.token = v
        · simp only [h, eq_self_iff_true, if_true]
          omega
        · simp [h]
      · simp only [insertCount, strLt_iff_lt, h1, if_false, h2, countTok, List.map_cons, List.sum_cons]
        have := ih
        simp only [countTok] at this
        omega

theorem countTok_countSorted (vals : List String) (v : String) :
    countTok (countSorted vals) v = vals.count v := by
  have haux : ∀ (l : List String) (L : List ROW_LIST),
      countTok (l.foldl insertCount L) v = countTok L v + l.count v := by
    intro l
    induction l with
    | nil => simp
    | cons a as ih =>
      intro L
      rw [List.foldl_cons, ih, countTok_insertCount, List.count_cons]
      by_cases h : a = v
      · subst h
        simp
        omega
      · have hba : ¬ (v = a) := fun q => h q.symm
        simp [h, hba]
  rw [countSorted, haux]
  simp [countTok]

theorem countTok_eq_zero (L : List ROW_LIST) (v : String)
    (h : v ∉ L.map (fun e => e.token)) : countTok L v = 0 := by
  induction L with
  | nil => simp [countTok]
  | cons e rest ih =>
    simp only [List.map_cons, List.mem_cons] at h
    push_neg at h
    have h1 : ¬ (e.token = v) := fun q => h.1 q.symm
    simp only [countTok, List.map_cons, List.sum_cons, h1, if_false]
    have := ih h.2
    simp only [countTok] at this
    omega

theorem countTok_of_mem_nodup (L : List ROW_LIST) (e : ROW_LIST)
    (hnd : (L.map (fun x => x.token)).Nodup) (he : e ∈ L) :
    countTok L e.token = e.nb_row := by
  induction L with
  | nil => cases he
  | cons f rest ih =>
    simp only [List.map_cons, List.nodup_cons] at hnd
    rcases List.mem_cons.mp he with he | he
    · subst he
      have h0 : countTok rest e.token = 0 := countTok_eq_zero _ _ hnd.1
      simp only [countTok] at h0 ⊢
      simp only [List.map_cons, List.sum_cons, eq_self_iff_true, if_true]
      omega
    · have hne : ¬ (f.token = e.token) := by
        intro q
        exact hnd.1 (q ▸ List.mem_map.mpr ⟨e, he, rfl⟩)
      simp only [countTok, List.map_cons, List.sum_cons, hne, if_false]
      have := ih hnd.2 he
      simp only [countTok] at this
      omega

theorem countSorted_tokens_nodup (vals : List String) :
    ((countSorted vals).map (fun e => e.token)).Nodup := by
  have h := countSorted_sorted vals
  rw [SortedRL] at h
  exact (List.pairwise_map.mpr h).imp ne_of_lt

theorem countSorted_count (vals : List String) (e : ROW_LIST)
    (he : e ∈ countSorted vals) : e.nb_row = vals.count e.token := by
  rw [← countTok_countSorted]
  exact (countTok_of_mem_nodup _ _ (countSorted_tokens_nodup vals) he).symm

theorem countSorted_length (vals : List String) :
    (countSorted vals).length = vals.dedup.length := by
  have hperm : List.Perm ((countSorted vals).map (fun e => e.token)) vals.dedup := by
    rw [List.perm_ext_iff_of_nodup (countSorted_tokens_nodup vals) vals.nodup_dedup]
    intro a
    rw [mem_countSorted_iff, List.mem_dedup]
  have := hperm.length_eq
  simpa using this

theorem index_gtf_ok (d : GTF_DATA) (k : String) (vals : List String)
    (h : keyValues d k = .ok vals) :
    index_gtf d k = .ok (buildIndexTree vals) := by
  unfold index_gtf
  rw [h]

theorem index_gtf_err (d : GTF_DATA) (k : String) (e : GtfError)
    (h : keyValues d k = .error e) :
    index_gtf d k = .error e := by
  unfold index_gtf
  rw [h]

theorem attr_values_call (d : GTF_DATA) (key : String) (vals : List String) (s : TTEXT)
    (hvals : keyValues d key = .ok vals) :
    get_attribute_values_list d key s = .ok (mkTable vals, d, mkTable vals) := by
  unfold get_attribute_values_list
  rw [index_gtf_ok d key vals hvals]
  simp [twalk_spec, buildIndexTree_inorder, mkTable]

theorem attr_values_call_err (d : GTF_DATA) (key : String) (e : GtfError) (s : TTEXT)
    (hvals : keyValues d key = .error e) :
    get_attribute_values_list d key s = .error e := by
  unfold get_attribute_values_list
  rw [index_gtf_err d key e hvals]

theorem keyValues_feature (d : GTF_DATA) :
    keyValues d "feature" = .ok (d.rows.map (fun r => r.feature)) := rfl

theorem keyValues_seqid (d : GTF_DATA) :
    keyValues d "seqid" = .ok (d.rows.map (fun r => r.seqid)) := rfl

theorem feature_eq_attr_call (d : GTF_DATA) (s : TTEXT) :
    get_feature_list d s = get_attribute_values_list d "feature" s := rfl

theorem seqid_eq_attr_call (d : GTF_DATA) (s : TTEXT) :
    get_seqid_list d s = get_attribute_values_list d "seqid" s := rfl

theorem attr_call_shape (d : GTF_DATA) (key : String) (s : TTEXT) (r : TTEXT)
    (d2 : GTF_DATA) (s2 : TTEXT)
    (h : get_attribute_values_list d key s = .ok (r, d2, s2)) :
    d2 = d ∧ s2 = r ∧ ∃ vals, keyValues d key = .ok vals ∧ r = mkTable vals := by
  cases hk : keyValues d key with
  | error e =>
    rw [attr_values_call_err d key e s hk] at h
    cases h
  | ok vals =>
    rw [attr_values_call d key vals s hk] at h
    simp only [Except.ok.injEq, Prod.mk.injEq] at h
    obtain ⟨hr, hd, hs⟩ := h
    exact ⟨hd.symm, hs.symm.trans hr, vals, hk ▸ rfl, hr.symm⟩

theorem attr_call_unknown (d : GTF_DATA) (a : String) (s : TTEXT)
    (h1 : ¬ a = "seqid") (h2 : ¬ a = "feature") (h3 : a ∉ get_all_attributes d) :
    get_attribute_values_list d a s = .error .UnknownKey := by
  apply attr_values_call_err
  unfold keyValues
  rw [if_neg h1, if_neg h2, if_neg h3]

theorem addName_nodup (acc : List String) (n : String) (h : acc.Nodup) :
    (addName acc n).Nodup := by
  unfold addName
  by_cases hm : n ∈ acc
  · simpa [hm] using h
  · simp [hm, List.nodup_append, h]

theorem foldl_addName_nodup (l : List String) (acc : List String) (h : acc.Nodup) :
    (l.foldl addName acc).Nodup := by
  induction l generalizing acc with
  | nil => exact h
  | cons a as ih => exact ih _ (addName_nodup _ _ h)

theorem rows_fold_nodup (rows : List GTF_ROW) (acc : List String) (h : acc.Nodup) :
    (rows.foldl (fun acc r => (r.attributes.map (fun p => p.1)).foldl addName acc) acc).Nodup := by
  induction rows generalizing acc with
  | nil => exact h
  | cons r rs ih => exact ih _ (foldl_addName_nodup _ _ h)

theorem get_all_attributes_nodup (d : GTF_DATA) : (get_all_attributes d).Nodup :=
  rows_fold_nodup d.rows [] List.nodup_nil

theorem runOps_append (l1 l2 : List ConcOp) (s : ConcState) :
    runOps (l1 ++ l2) s = runOps l2 (runOps l1 s) := by
  simp [runOps, List.foldl_append]

theorem runOps_cons (o : ConcOp) (ops : List ConcOp) (s : ConcState) :
    runOps (o :: ops) s = runOps ops (concStep s o) := rfl

theorem runOps_res1_other (ops : List ConcOp) (s : ConcState)
    (h : ∀ o ∈ ops, opCall o = CallId.two) :
    (runOps ops s).res1 = s.res1 := by
  induction ops generalizing s with
  | nil => rfl
  | cons o os ih =>
    rw [runOps_cons, ih _ (fun x hx => h x (List.mem_cons_of_mem _ hx))]
    have ho := h o (List.mem_cons_self _ _)
    cases o with
    | setFresh c => rfl
    | appendRow c row => rfl
    | ret c =>
      cases c with
      | one => simp [opCall] at ho
      | two => rfl

theorem runOps_res2_other (ops : List ConcOp) (s : ConcState)
    (h : ∀ o ∈ ops, opCall o = CallId.one) :
    (runOps ops s).res2 = s.res2 := by
  induction ops generalizing s with
  | nil => rfl
  | cons o os ih =>
    rw [runOps_cons, ih _ (fun x hx => h x (List.mem_cons_of_mem _ hx))]
    have ho := h o (List.mem_cons_self _ _)
    cases o with
    | setFresh c => rfl
    | appendRow c row => rfl
    | ret c =>
      cases c with
      | one => rfl
      | two => simp [opCall] at ho

theorem callOps_tags (c : CallId) (d : GTF_DATA) (k : String) :
    ∀ o ∈ callOps c d k, opCall o = c := by
  unfold callOps
  cases index_gtf d k with
  | error e => simp
  | ok tr =>
    intro o ho
    rcases List.mem_cons.mp ho with rfl | ho
    · rfl
    · rcases List.mem_append.mp ho with ho | ho
      · rcases List.mem_map.mp ho with ⟨e, he, rfl⟩
        rfl
      · rcases List.mem_singleton.mp ho with rfl
        rfl

theorem runOps_appendRows (c : CallId) (rows : List ROW_LIST) (s : ConcState) :
    runOps (rows.map (fun e => ConcOp.appendRow c (action_list_row e))) s =
      { s with g := ⟨s.g.size + rows.length, s.g.data ++ rows.map action_list_row⟩ } := by
  induction rows generalizing s with
  | nil => simp [runOps]
  | cons e es ih =>
    rw [List.map_cons, runOps_cons, ih]
    simp only [concStep, List.length_cons, List.map_cons]
    refine congrArg (fun g => { s with g := g }) ?_
    rw [TTEXT.mk.injEq]
    exact ⟨by omega, by simp⟩

theorem callOps_run_one (d : GTF_DATA) (k : String) (s : ConcState) (tr : Tree)
    (h : index_gtf d k = .ok tr) :
    runOps (callOps .one d k) s =
      { s with g := ⟨tr.inorder.length, tr.inorder.map action_list_row⟩,
               res1 := some ⟨tr.inorder.length, tr.inorder.map action_list_row⟩ } := by
  unfold callOps
  rw [h]
  rw [runOps_cons, runOps_append, runOps_appendRows]
  simp [concStep, runOps]

theorem callOps_run_two (d : GTF_DATA) (k : String) (s : ConcState) (tr : Tree)
    (h : index_gtf d k = .ok tr) :
    runOps (callOps .two d k) s =
      { s with g := ⟨tr.inorder.length, tr.inorder.map action_list_row⟩,
               res2 := some ⟨tr.inorder.length, tr.inorder.map action_list_row⟩ } := by
  unfold callOps
  rw [h]
  rw [runOps_cons, runOps_append, runOps_appendRows]
  simp [concStep, runOps]

theorem mkTable_run (vals : List String) (s : TTEXT) :
    (twalk_action_list (buildIndexTree vals) s).2 =
      ⟨s.size + (countSorted vals).length, s.data ++ (countSorted vals).map action_list_row⟩ := by
  rw [twalk_spec, buildIndexTree_inorder]

theorem mkTable_arity (vals : List String) : ∀ r ∈ (mkTable vals).data, r.length = 2 := by
  intro r hr
  simp only [mkTable] at hr
  rcases List.mem_map.mp hr with ⟨e, he, rfl⟩
  rfl

/-- C1: for every dataset and every key whose frequency index exists, the
materialization run by `get_feature_list`, `get_seqid_list` and
`get_attribute_values_list` flattens the complete in-order traversal of the
index, appending exactly one row `[text(row_count), text(distinct_value)]`
per distinct value of the key: the returned table's row count equals the
number of distinct values, the value column is in strictly ascending sorted
order, and a value occurs in the dataset exactly when its
`[text(count), value]` row is in the table. -/
theorem C1_index_materialization (d : GTF_DATA) (key : String) (vals : List String)
    (res : TTEXT) (s : TTEXT)
    (hvals : keyValues d key = .ok vals)
    (hrun : get_attribute_values_list d key s = .ok (res, d, res) ∨
            (key = "feature" ∧ get_feature_list d s = .ok (res, d, res)) ∨
            (key = "seqid" ∧ get_seqid_list d s = .ok (res, d, res))) :
    res.data = (countSorted vals).map action_list_row ∧
    res.size = res.data.length ∧
    res.data.length = vals.dedup.length ∧
    (res.data.map (fun r => r.getD 1 "")).Pairwise (fun a b => a < b) ∧
    (∀ v, v ∈ vals ↔ [toString (vals.count v), v] ∈ res.data) := by
  have hcall := attr_values_call d key vals s hvals
  have hres : res = mkTable vals := by
    rcases hrun with h | ⟨hk, h⟩ | ⟨hk, h⟩
    · rw [hcall] at h
      simp only [Except.ok.injEq, Prod.mk.injEq] at h
      exact h.1.symm
    · subst hk
      rw [feature_eq_attr_call, hcall] at h
      simp only [Except.ok.injEq, Prod.mk.injEq] at h
      exact h.1.symm
    · subst hk
      rw [seqid_eq_attr_call, hcall] at h
      simp only [Except.ok.injEq, Prod.mk.injEq] at h
      exact h.1.symm
  subst hres
  have hdata : (mkTable vals).data = (countSorted vals).map action_list_row := rfl
  have htok : (mkTable vals).data.map (fun r => r.getD 1 "") =
      (countSorted vals).map (fun e => e.token) := by
    rw [hdata, List.map_map]
    rfl
  refine ⟨rfl, by simp [mkTable], by simp [mkTable, countSorted_length], ?_, ?_⟩
  · rw [htok]
    exact List.pairwise_map.mpr (countSorted_sorted vals)
  · intro v
    constructor
    · intro hv
      rcases List.mem_map.mp ((mem_countSorted_iff vals v).mpr hv) with ⟨e, he, hte⟩
      refine hdata ▸ List.mem_map.mpr ⟨e, he, ?_⟩
      rw [action_list_row, countSorted_count vals e he, hte]
    · intro hv
      rw [hdata] at hv
      rcases List.mem_map.mp hv with ⟨e, he, hte⟩
      have hetok : e.token = v := by
        have := congrArg (fun l => l.getD 1 "") hte
        simpa [action_list_row] using this
      exact (mem_countSorted_iff vals v).mp (hetok ▸ List.mem_map.mpr ⟨e, he, rfl⟩)

/-- Witness for C1: the example dataset, key `feature`, index existing. -/
theorem C1_witness :
    (⟨2, [["3", "exon"], ["1", "gene"]]⟩ : TTEXT).data.length =
      (["exon", "exon", "gene", "exon"] : List String).dedup.length ∧
    ((⟨2, [["3", "exon"], ["1", "gene"]]⟩ : TTEXT).data.map
        (fun r => r.getD 1 "")).Pairwise (fun a b => a < b) ∧
    ("gene" ∈ (["exon", "exon", "gene", "exon"] : List String) ↔
      [toString ((["exon", "exon", "gene", "exon"] : List String).count "gene"), "gene"] ∈
        (⟨2, [["3", "exon"], ["1", "gene"]]⟩ : TTEXT).data) := by
  have h := C1_index_materialization exampleData "feature" ["exon", "exon", "gene", "exon"]
    ⟨2, [["3", "exon"], ["1", "gene"]]⟩ ⟨0, []⟩ rfl (Or.inl rfl)
  exact ⟨h.2.2.1, h.2.2.2.1, h.2.2.2.2 "gene"⟩

/-- C2: for every dataset, `get_attribute_list` returns a table with exactly
one single-field row `[name]` per entry of the enumerated attribute-name
sequence, preserving the enumerator's order, with no duplicate rows, and the
table's row count (both the `size` field and the length of `data`) equals
the length of the name list. -/
theorem C2_attribute_name_listing (d : GTF_DATA) (s : TTEXT) :
    (get_attribute_list d s).1.data = (get_all_attributes d).map (fun n => [n]) ∧
    (get_attribute_list d s).1.size = (get_all_attributes d).length ∧
    (get_attribute_list d s).1.data.length = (get_all_attributes d).length ∧
    (get_attribute_list d s).1.data.Nodup := by
  refine ⟨rfl, rfl, by simp [get_attribute_list], ?_⟩
  have hinj : Function.Injective (fun n : String => [n]) := by
    intro a b hab
    simpa using hab
  exact List.Nodup.map hinj (get_all_attributes_nodup d)

/-- C3: a key that cannot be indexed (here: an attribute name that is not a
column and occurs in no row) makes `get_attribute_values_list` propagate the
collaborator's `UnknownKey` failure; no table of any kind is returned. -/
theorem C3_unknown_key_propagates (d : GTF_DATA) (a : String) (s : TTEXT)
    (h1 : a ≠ "seqid") (h2 : a ≠ "feature") (h3 : a ∉ get_all_attributes d) :
    get_attribute_values_list d a s = .error .UnknownKey ∧
    ∀ out, get_attribute_values_list d a s ≠ .ok out := by
  have h := attr_call_unknown d a s h1 h2 h3
  refine ⟨h, fun out hc => ?_⟩
  rw [h] at hc
  cases hc

/-- Witness for C3: requesting the absent attribute name `nope`. -/
theorem C3_witness :
    get_attribute_values_list dsW "nope" ⟨0, []⟩ = .error .UnknownKey := by
  exact (C3_unknown_key_propagates dsW "nope" ⟨0, []⟩ (by decide) (by decide) (by decide)).1

/-- C4: when the frequency index for the requested key is empty — in
particular on a dataset with zero rows — every index-based entry point
succeeds with a valid zero-row table; the outcome is a success, not the
`UnknownKey` failure. -/
theorem C4_empty_index_success (d : GTF_DATA) (key : String) (s : TTEXT)
    (hempty : keyValues d key = .ok []) (hzero : d.rows = []) :
    get_attribute_values_list d key s = .ok (⟨0, []⟩, d, ⟨0, []⟩) ∧
    get_feature_list d s = .ok (⟨0, []⟩, d, ⟨0, []⟩) ∧
    get_seqid_list d s = .ok (⟨0, []⟩, d, ⟨0, []⟩) ∧
    (∀ e : GtfError, get_attribute_values_list d key s ≠ .error e) := by
  have hmk : mkTable [] = (⟨0, []⟩ : TTEXT) := rfl
  have h1 := attr_values_call d key [] s hempty
  rw [hmk] at h1
  have hf : keyValues d "feature" = .ok [] := by
    rw [keyValues_feature, hzero]
    rfl
  have hs : keyValues d "seqid" = .ok [] := by
    rw [keyValues_seqid, hzero]
    rfl
  have h2 := attr_values_call d "feature" [] s hf
  have h3 := attr_values_call d "seqid" [] s hs
  rw [hmk] at h2 h3
  refine ⟨h1, ?_, ?_, fun e hc => ?_⟩
  · rw [feature_eq_attr_call]
    exact h2
  · rw [seqid_eq_attr_call]
    exact h3
  · rw [h1] at hc
    cases hc

/-- Witness for C4: the dataset with zero rows, key `feature`. -/
theorem C4_witness :
    get_feature_list dsEmpty ⟨5, [["x"]]⟩ = .ok (⟨0, []⟩, dsEmpty, ⟨0, []⟩) := by
  exact (C4_empty_index_success dsEmpty "feature" ⟨5, [["x"]]⟩ rfl rfl).2.1

/-- C5: within one call every row of the returned table has the same field
arity — 2 fields for each index-based entry point, 1 field for the
attribute-name entry point. -/
theorem C5_fixed_arity (d : GTF_DATA) (key : String) (s : TTEXT)
    (rF rS rA : TTEXT) (dF dS dA2 : GTF_DATA) (sF sS sA : TTEXT)
    (hF : get_feature_list d s = .ok (rF, dF, sF))
    (hS : get_seqid_list d s = .ok (rS, dS, sS))
    (hA : get_attribute_values_list d key s = .ok (rA, dA2, sA)) :
    (∀ r ∈ rF.data, r.length = 2) ∧ (∀ r ∈ rS.data, r.length = 2) ∧
    (∀ r ∈ rA.data, r.length = 2) ∧
    (∀ r ∈ (get_attribute_list d s).1.data, r.length = 1) := by
  have h1 := attr_call_shape d "feature" s rF dF sF ((feature_eq_attr_call d s).symm.trans hF)
  have h2 := attr_call_shape d "seqid" s rS dS sS ((seqid_eq_attr_call d s).symm.trans hS)
  have h3 := attr_call_shape d key s rA dA2 sA hA
  obtain ⟨-, -, v1, -, hv1⟩ := h1
  obtain ⟨-, -, v2, -, hv2⟩ := h2
  obtain ⟨-, -, v3, -, hv3⟩ := h3
  refine ⟨hv1 ▸ mkTable_arity v1, hv2 ▸ mkTable_arity v2, hv3 ▸ mkTable_arity v3, ?_⟩
  intro r hr
  rcases List.mem_map.mp hr with ⟨n, hn, rfl⟩
  rfl

/-- Witness for C5: the one-row dataset, with attribute key `gene_id`. -/
theorem C5_witness :
    (["1", "exon"] : List String).length = 2 ∧
    (["gene_id"] : List String).length = 1 := by
  have h := C5_fixed_arity dsW "gene_id" ⟨0, []⟩
    ⟨1, [["1", "exon"]]⟩ ⟨1, [["1", "chr2"]]⟩ ⟨1, [["1", "g1"]]⟩ dsW dsW dsW
    ⟨1, [["1", "exon"]]⟩ ⟨1, [["1", "chr2"]]⟩ ⟨1, [["1", "g1"]]⟩ rfl rfl rfl
  refine ⟨h.1 ["1", "exon"] ?_, h.2.2.2 ["gene_id"] ?_⟩
  · simp
  · rw [show (get_attribute_list dsW ⟨0, []⟩).1.data = [["gene_id"]] from rfl]
    simp

/-- C6: each entry point is deterministic in the dataset and key — in the
model, its outcome does not depend on the value the process-global
accumulator holds when the call starts, so re-running the same call against
an unchanged dataset yields exactly the same table (identical row order and
content). -/
theorem C6_determinism (d : GTF_DATA) (key : String) (s1 s2 : TTEXT) :
    get_feature_list d s1 = get_feature_list d s2 ∧
    get_seqid_list d s1 = get_seqid_list d s2 ∧
    get_attribute_values_list d key s1 = get_attribute_values_list d key s2 ∧
    get_attribute_list d s1 = get_attribute_list d s2 :=
  ⟨rfl, rfl, rfl, rfl⟩

/-- C7: no entry point mutates the dataset or the traversed index: the walk
returns the tree unchanged, each entry point returns the dataset component
unchanged, and the only effect on the global accumulator is that it holds
the freshly constructed table that is returned. -/
theorem C7_no_mutation (d : GTF_DATA) (key : String) (s : TTEXT) (t : Tree) (v : TTEXT)
    (rF rS rA : TTEXT) (dF dS dA2 : GTF_DATA) (sF sS sA : TTEXT)
    (hF : get_feature_list d s = .ok (rF, dF, sF))
    (hS : get_seqid_list d s = .ok (rS, dS, sS))
    (hA : get_attribute_values_list d key s = .ok (rA, dA2, sA)) :
    (twalk_action_list t v).1 = t ∧
    dF = d ∧ sF = rF ∧ dS = d ∧ sS = rS ∧ dA2 = d ∧ sA = rA ∧
    (get_attribute_list d s).2.1 = d ∧
    (get_attribute_list d s).2.2 = (get_attribute_list d s).1 := by
  have h1 := attr_call_shape d "feature" s rF dF sF ((feature_eq_attr_call d s).symm.trans hF)
  have h2 := attr_call_shape d "seqid" s rS dS sS ((seqid_eq_attr_call d s).symm.trans hS)
  have h3 := attr_call_shape d key s rA dA2 sA hA
  refine ⟨?_, h1.1, h1.2.1, h2.1, h2.2.1, h3.1, h3.2.1, rfl, rfl⟩
  rw [twalk_spec]

/-- Witness for C7 at the one-row dataset and attribute key `gene_id`. -/
theorem C7_witness :
    (twalk_action_list Tree.empty ⟨0, []⟩).1 = Tree.empty ∧ dsW = dsW := by
  have h := C7_no_mutation dsW "gene_id" ⟨0, []⟩ Tree.empty ⟨0, []⟩
    ⟨1, [["1", "exon"]]⟩ ⟨1, [["1", "chr2"]]⟩ ⟨1, [["1", "g1"]]⟩ dsW dsW dsW
    ⟨1, [["1", "exon"]]⟩ ⟨1, [["1", "chr2"]]⟩ ⟨1, [["1", "g1"]]⟩ rfl rfl rfl
  exact ⟨h.1, h.2.1⟩

/-- C8 counterexample: on the dataset whose feature column holds
`["exon","exon","gene","exon"]`, `get_feature_list` returns the rows
`[["3","exon"],["1","gene"]]` — ascending order of the value — and that is
not the row sequence `[["1","gene"],["3","exon"]]` the claim states. -/
theorem C8_counterexample :
    get_feature_list exampleData ⟨0, []⟩ =
      .ok (⟨2, [["3", "exon"], ["1", "gene"]]⟩, exampleData,
           ⟨2, [["3", "exon"], ["1", "gene"]]⟩) ∧
    (⟨2, [["3", "exon"], ["1", "gene"]]⟩ : TTEXT).data ≠ [["1", "gene"], ["3", "exon"]] :=
  ⟨rfl, by decide⟩

/-- C8 amended: on that dataset `get_feature_list` returns exactly the rows
`[["3","exon"],["1","gene"]]`, in ascending lexicographic order of the
feature value (`"exon" < "gene"`). -/
theorem C8_amended :
    get_feature_list exampleData ⟨0, []⟩ =
      .ok (⟨2, [["3", "exon"], ["1", "gene"]]⟩, exampleData,
           ⟨2, [["3", "exon"], ["1", "gene"]]⟩) ∧
    ("exon" : String) < "gene" :=
  ⟨rfl, (strLt_iff_lt "exon" "gene").mp rfl⟩


/-- C9 counterexample: the accumulator `vret` is process-global, so two
overlapping calls can corrupt each other's tables.  Concretely: interleaving
the atomic traces of `get_feature_list` on two independent one-row datasets
so that both resets run before the appends makes call one return a two-row
table that contains call two's row `["1","b"]` and differs from call one's
isolated result. -/
theorem C9_counterexample :
    Interleave (callOps .one dsX "feature") (callOps .two dsY "feature") opsIL ∧
    (runOps opsIL s0c).res1 = some ⟨2, [["1", "a"], ["1", "b"]]⟩ ∧
    (runOps (callOps .one dsX "feature") s0c).res1 = some ⟨1, [["1", "a"]]⟩ ∧
    (runOps (callOps .two dsY "feature") s0c).res2 = some ⟨1, [["1", "b"]]⟩ ∧
    (⟨2, [["1", "a"], ["1", "b"]]⟩ : TTEXT) ≠ ⟨1, [["1", "a"]]⟩ ∧
    ["1", "b"] ∈ (⟨2, [["1", "a"], ["1", "b"]]⟩ : TTEXT).data := by
  refine ⟨?_, rfl, rfl, rfl, by decide, by simp⟩
  rw [show callOps .one dsX "feature" =
        [ConcOp.setFresh .one, ConcOp.appendRow .one ["1", "a"], ConcOp.ret .one] from rfl,
      show callOps .two dsY "feature" =
        [ConcOp.setFresh .two, ConcOp.appendRow .two ["1", "b"], ConcOp.ret .two] from rfl,
      show opsIL = [ConcOp.setFresh .one, ConcOp.setFresh .two,
        ConcOp.appendRow .one ["1", "a"], ConcOp.appendRow .two ["1", "b"],
        ConcOp.ret .one, ConcOp.ret .two] from rfl]
  exact .left (.right (.left (.right (.left (.right .nil)))))

/-- C9 amended: with the process-global accumulator of the source,
non-overlapping executions are safe — when the two calls' atomic traces run
one after the other, each call's recorded result is exactly the table its
entry point returns in isolation — but overlapping interleavings can corrupt
the results (see the counterexample), which is why the spec (section 5)
requires serializing concurrent invocations of the source. -/
theorem C9_sequential_no_interference (d1 d2 : GTF_DATA) (k1 k2 : String)
    (s0 : ConcState) (v0 : TTEXT) (r1 r2 : TTEXT) (e1 e2 : GTF_DATA) (t1 t2 : TTEXT)
    (h1 : get_attribute_values_list d1 k1 v0 = .ok (r1, e1, t1))
    (h2 : get_attribute_values_list d2 k2 v0 = .ok (r2, e2, t2)) :
    (runOps (callOps .one d1 k1 ++ callOps .two d2 k2) s0).res1 = some r1 ∧
    (runOps (callOps .one d1 k1 ++ callOps .two d2 k2) s0).res2 = some r2 := by
  obtain ⟨-, -, v1, hk1, hr1⟩ := attr_call_shape d1 k1 v0 r1 e1 t1 h1
  obtain ⟨-, -, v2, hk2, hr2⟩ := attr_call_shape d2 k2 v0 r2 e2 t2 h2
  have hi1 := index_gtf_ok d1 k1 v1 hk1
  have hi2 := index_gtf_ok d2 k2 v2 hk2
  have htb1 : (⟨(buildIndexTree v1).inorder.length,
      (buildIndexTree v1).inorder.map action_list_row⟩ : TTEXT) = r1 := by
    rw [buildIndexTree_inorder, hr1, mkTable]
  have htb2 : (⟨(buildIndexTree v2).inorder.length,
      (buildIndexTree v2).inorder.map action_list_row⟩ : TTEXT) = r2 := by
    rw [buildIndexTree_inorder, hr2, mkTable]
  rw [runOps_append, callOps_run_one d1 k1 s0 _ hi1,
    callOps_run_two d2 k2 _ _ hi2]
  exact ⟨congrArg some htb1, congrArg some htb2⟩

/-- Witness for the amended C9: the two one-row datasets run sequentially. -/
theorem C9_sequential_witness :
    (runOps (callOps .one dsX "feature" ++ callOps .two dsY "feature") s0c).res1 =
      some ⟨1, [["1", "a"]]⟩ ∧
    (runOps (callOps .one dsX "feature" ++ callOps .two dsY "feature") s0c).res2 =
      some ⟨1, [["1", "b"]]⟩ := by
  exact C9_sequential_no_interference dsX dsY "feature" "feature" s0c ⟨0, []⟩
    ⟨1, [["1", "a"]]⟩ ⟨1, [["1", "b"]]⟩ dsX dsY ⟨1, [["1", "a"]]⟩ ⟨1, [["1", "b"]]⟩ rfl rfl

/-- C10: the three index-based entry points are one operation parameterized
only by the key name: `get_feature_list` coincides with
`get_attribute_values_list` at key `feature`, and `get_seqid_list` with
`get_attribute_values_list` at key `seqid`, on every dataset and every
incoming accumulator state. -/
theorem C10_one_parameterized_operation (d : GTF_DATA) (s : TTEXT) :
    get_feature_list d s = get_attribute_values_list d "feature" s ∧
    get_seqid_list d s = get_attribute_values_list d "seqid" s :=
  ⟨feature_eq_attr_call d s, seqid_eq_attr_call d s⟩

end GetListC
